import Mathlib

/-!
Verification of the argh command-line token classifier (src/argh2.h).

Strings are modelled as `List Char`.  The C++ container types map as
follows: `std::vector<Tstring> pos_args_` becomes a `List Str` (append at
the back), `std::multiset<Tstring> flags_` becomes a `List Str` (only
membership and multiplicity matter), `std::map<Tstring, Tstring> params_`
becomes an association list whose insert is a no-op when the key is
already present (the semantics of `std::map::insert`), and
`std::set<Tstring> registeredParams_` becomes a `List Str` queried by
membership.  The member `args_` (a verbatim copy of the input vector) is
not modelled: no observable behaviour depends on it.
-/

namespace Argh

/-- Strings of the C++ source, modelled as lists of characters. -/
abbrev Str := List Char

/-- Mode bit `PREFER_FLAG_FOR_UNREG_OPTION = 1 << 0` from the `Mode` enum. -/
def PREFER_FLAG_FOR_UNREG_OPTION : Nat := 1

/-- Mode bit `PREFER_PARAM_FOR_UNREG_OPTION = 1 << 1` from the `Mode` enum. -/
def PREFER_PARAM_FOR_UNREG_OPTION : Nat := 2

/-- Mode bit `NO_SPLIT_ON_EQUALSIGN = 1 << 2` from the `Mode` enum. -/
def NO_SPLIT_ON_EQUALSIGN : Nat := 4

/-- Mode bit `SINGLE_DASH_IS_MULTIFLAG = 1 << 3` from the `Mode` enum. -/
def SINGLE_DASH_IS_MULTIFLAG : Nat := 8

/-- Test of a mode bit, modelling the C++ expression `mode & bit`. -/
def hasBit (mode bit : Nat) : Bool := mode &&& bit != 0

/-- Whitespace in the C locale, skipped by `operator>>` before reading a number. -/
def isWsC (c : Char) : Bool :=
  c = ' ' || c = '\t' || c = '\n' || c = '\x0b' || c = '\x0c' || c = '\r'

/-- Greedy accumulation of the characters that `std::num_get` gathers when
extracting a `double` (decimal forms; hexadecimal and inf/nan spellings are
not modelled).  The three flags record whether a decimal point was seen,
whether an exponent character was seen, and whether a sign character is
acceptable at the current position (at the very start and immediately after
the exponent character). -/
def accAux : List Char → Bool → Bool → Bool → List Char
  | [], _, _, _ => []
  | c :: cs, seenDot, seenExp, signOk =>
    if c.isDigit then c :: accAux cs seenDot seenExp false
    else if (c = '+' || c = '-') && signOk then c :: accAux cs seenDot seenExp false
    else if c = '.' && !seenDot && !seenExp then c :: accAux cs true seenExp false
    else if (c = 'e' || c = 'E') && !seenExp then c :: accAux cs seenDot true true
    else []

/-- Characters accumulated by stream extraction of a `double` from `s`,
after the initial whitespace skip performed by the stream. -/
def numAccum (s : Str) : Str := accAux (s.dropWhile isWsC) false false true

/-- Drop one leading sign character, as done when validating a decimal literal. -/
def stripSign : Str → Str
  | c :: t => if c = '+' || c = '-' then t else c :: t
  | [] => []

/-- Validity of an optional exponent suffix of a decimal floating literal:
either empty, or an exponent character followed by an optionally signed
nonempty digit string consuming the whole remainder. -/
def validExpTail (r : Str) : Bool :=
  match r with
  | [] => true
  | e :: r2 =>
    if e = 'e' || e = 'E' then
      let r3 := stripSign r2
      let d := r3.takeWhile fun c => c.isDigit
      decide (d ≠ []) && decide (r3.drop d.length = [])
    else false

/-- Validity of a complete decimal floating literal, the check `strtod`
performs on the accumulated characters: optional sign, then digits with an
optional fractional part (at least one digit in total), then an optional
exponent. -/
def validFloat (s : Str) : Bool :=
  let s1 := stripSign s
  let d1 := s1.takeWhile fun c => c.isDigit
  let r1 := s1.drop d1.length
  match r1 with
  | '.' :: r2 =>
    let d2 := r2.takeWhile fun c => c.isDigit
    let r3 := r2.drop d2.length
    (decide (d1 ≠ []) || decide (d2 ≠ [])) && validExpTail r3
  | _ => decide (d1 ≠ []) && validExpTail r1

/-- Model of `parser::is_number`: extraction of a `double` from an input
string stream built over `arg` succeeds (neither failbit nor badbit). -/
def is_number (arg : Str) : Bool := validFloat (numAccum arg)

/-- Model of `parser::is_option`: not a number, and the first character is
a dash or a slash.  The source asserts `0 != arg.size()`; the empty token
is an unsupported input and is modelled as a non-option. -/
def is_option (arg : Str) : Bool :=
  if is_number arg then false
  else
    match arg with
    | [] => false
    | c :: _ => c = '-' || c = '/'

/-- Model of `find_first_not_of(c)`: index of the first character different
from `c`, or `none` when every character equals `c` (the `npos` case). -/
def ffno (c : Char) : Str → Option Nat
  | [] => none
  | x :: xs => if x = c then (ffno c xs).map (· + 1) else some 0

/-- Model of `find(c)`: index of the first occurrence of `c`, or `none`
when `c` does not occur (the `npos` case). -/
def ffo (c : Char) : Str → Option Nat
  | [] => none
  | x :: xs => if x = c then some 0 else (ffo c xs).map (· + 1)

/-- Model of `parser::trim_leading_dashes`: position of the first non-dash
character; if that position is 0 or `npos`, retry with non-slash; return
the suffix from the found position, or the string itself on `npos`. -/
def trim_leading_dashes (name : Str) : Str :=
  match ffno '-' name with
  | some p =>
    if p = 0 then
      match ffno '/' name with
      | some q => name.drop q
      | none => name
    else name.drop p
  | none =>
    match ffno '/' name with
    | some q => name.drop q
    | none => name

/-- Model of `parser::is_param`: membership of `name` in the registered
parameter set. -/
def is_param (regd : List Str) (name : Str) : Bool := decide (name ∈ regd)

/-- Model of `parser::add_param`: insert the dash-stripped name into the
registered set (duplicate registration is a no-op). -/
def add_param (regd : List Str) (name : Str) : List Str :=
  let t := trim_leading_dashes name
  if t ∈ regd then regd else regd ++ [t]

/-- Lookup in the parameter association list, modelling `params_.find`. -/
def plookup (k : Str) : List (Str × Str) → Option Str
  | [] => none
  | (a, b) :: m => if a = k then some b else plookup k m

/-- Model of `params_.insert({k, v})`: `std::map::insert` does nothing when
the key is already present, so the first insertion for a key wins. -/
def insertParam (m : List (Str × Str)) (k v : Str) : List (Str × Str) :=
  if (plookup k m).isSome then m else m ++ [(k, v)]

/-- The three output containers of the parser (the classification state). -/
structure ParserState where
  params : List (Str × Str)
  pos_args : List Str
  flags : List Str
deriving DecidableEq, Repr

/-- The containers of a freshly constructed parser: all empty. -/
def emptyState : ParserState := ⟨[], [], []⟩

/-- Model of the member `empty_`, the string returned by out-of-range
positional indexing. -/
def empty_ : Str := []

/-- Outcome of classifying one token of the loop body of `parser::parse`
(together with its lookahead token where relevant): positional argument,
equals-split parameter, pure multi-flag expansion, flag (with possible
multi-flag prefix flags), value-consuming parameter (with possible
multi-flag prefix flags), or assertion failure on conflicting mode bits. -/
inductive StepRes where
  | positional
  | eqParam (k v : Str)
  | multiflagOnly (cs : Str)
  | flag (pre : List Str) (name : Str)
  | par (pre : List Str) (k v : Str)
  | abort
deriving DecidableEq, Repr

/-- Lookahead disambiguation (the tail of the loop body of `parser::parse`,
lines 298-328): a candidate name with no following token or followed by an
option becomes a flag; otherwise the conflicting-mode assertion is checked,
and the name becomes a parameter consuming the next token when registered
or when `PREFER_PARAM_FOR_UNREG_OPTION` is set, else a flag.  `pre` carries
flags already produced by a multi-flag expansion of the same token. -/
def look (regd : List Str) (mode : Nat) (pre : List Str) (name : Str)
    (next? : Option Str) : StepRes :=
  match next? with
  | none => .flag pre name
  | some nxt =>
    if is_option nxt then .flag pre name
    else if hasBit mode PREFER_FLAG_FOR_UNREG_OPTION = true ∧
            hasBit mode PREFER_PARAM_FOR_UNREG_OPTION = true then .abort
    else if is_param regd name = true ∨
            hasBit mode PREFER_PARAM_FOR_UNREG_OPTION = true then .par pre name nxt
    else .flag pre name

/-- Classification of an option token after the equals-split check (lines
270-328 of `parser::parse`): the single-dash multi-flag expansion, feeding
a held-back registered final character into lookahead disambiguation when
applicable, otherwise lookahead disambiguation on the candidate name. -/
def afterSplit (regd : List Str) (mode : Nat) (tok name : Str)
    (next? : Option Str) : StepRes :=
  if tok.length - name.length = 1 ∧ hasBit mode SINGLE_DASH_IS_MULTIFLAG = true ∧
     is_param regd name = false then
    match name.getLast? with
    | some c =>
      if is_param regd [c] then
        look regd mode (name.dropLast.map fun a => [a]) [c] next?
      else .multiflagOnly name
    | none => .multiflagOnly name
  else look regd mode [] name next?

/-- Classification of one token (the full loop body of `parser::parse`):
non-options are positional; otherwise the name is dash-stripped, split at
an equals sign when splitting is enabled, and handed to the multi-flag and
lookahead logic. -/
def step (regd : List Str) (mode : Nat) (tok : Str) (next? : Option Str) : StepRes :=
  if is_option tok = false then .positional
  else
    let name := trim_leading_dashes tok
    if hasBit mode NO_SPLIT_ON_EQUALSIGN = false then
      match ffo '=' name with
      | some p => .eqParam (name.take p) (name.drop (p + 1))
      | none => afterSplit regd mode tok name next?
    else afterSplit regd mode tok name next?

/-- Model of the loop of `parser::parse` (lines 250-329): fold the per-token
classification over the argument list, threading the containers.  `none`
models the failure of the `assert` on conflicting mode bits.  The `.par`
outcome consumes the following token as the parameter value (`++i`). -/
def parse (regd : List Str) (mode : Nat) : List Str → ParserState → Option ParserState
  | [], st => some st
  | tok :: rest, st =>
    match step regd mode tok rest.head? with
    | .positional => parse regd mode rest { st with pos_args := st.pos_args ++ [tok] }
    | .eqParam k v => parse regd mode rest { st with params := insertParam st.params k v }
    | .multiflagOnly cs =>
      parse regd mode rest { st with flags := st.flags ++ cs.map fun a => [a] }
    | .flag pre name => parse regd mode rest { st with flags := st.flags ++ pre ++ [name] }
    | .par pre k v =>
      match rest with
      | [] => none
      | _ :: rest2 =>
        parse regd mode rest2
          { st with flags := st.flags ++ pre, params := insertParam st.params k v }
    | .abort => none

/-- Classification on a freshly constructed parser: the containers start empty. -/
def parseNew (regd : List Str) (mode : Nat) (args : List Str) : Option ParserState :=
  parse regd mode args emptyState

theorem parse_cons_positional (regd : List Str) (mode : Nat) (tok : Str) (rest : List Str)
    (st : ParserState) (hs : step regd mode tok rest.head? = .positional) :
    parse regd mode (tok :: rest) st =
      parse regd mode rest { st with pos_args := st.pos_args ++ [tok] } := by
  simp only [parse, hs]

theorem parse_cons_eqParam (regd : List Str) (mode : Nat) (tok : Str) (rest : List Str)
    (st : ParserState) (k v : Str) (hs : step regd mode tok rest.head? = .eqParam k v) :
    parse regd mode (tok :: rest) st =
      parse regd mode rest { st with params := insertParam st.params k v } := by
  simp only [parse, hs]

theorem parse_cons_multiflagOnly (regd : List Str) (mode : Nat) (tok : Str) (rest : List Str)
    (st : ParserState) (cs : Str) (hs : step regd mode tok rest.head? = .multiflagOnly cs) :
    parse regd mode (tok :: rest) st =
      parse regd mode rest { st with flags := st.flags ++ cs.map fun a => [a] } := by
  simp only [parse, hs]

theorem parse_cons_flag (regd : List Str) (mode : Nat) (tok : Str) (rest : List Str)
    (st : ParserState) (pre : List Str) (name : Str)
    (hs : step regd mode tok rest.head? = .flag pre name) :
    parse regd mode (tok :: rest) st =
      parse regd mode rest { st with flags := st.flags ++ pre ++ [name] } := by
  simp only [parse, hs]

theorem parse_cons_par (regd : List Str) (mode : Nat) (tok nxt : Str) (rest2 : List Str)
    (st : ParserState) (pre : List Str) (k v : Str)
    (hs : step regd mode tok (nxt :: rest2).head? = .par pre k v) :
    parse regd mode (tok :: nxt :: rest2) st =
      parse regd mode rest2
        { st with flags := st.flags ++ pre, params := insertParam st.params k v } := by
  conv_lhs => rw [parse]
  rw [hs]

theorem parse_cons_abort (regd : List Str) (mode : Nat) (tok : Str) (rest : List Str)
    (st : ParserState) (hs : step regd mode tok rest.head? = .abort) :
    parse regd mode (tok :: rest) st = none := by
  simp only [parse, hs]

/-- Model of `parser::operator[](size_t)` (lines 98-103): the stored
positional at `ind`, or a reference to `empty_` when out of range. -/
def opIdx (st : ParserState) (ind : Nat) : Str :=
  if h : ind < st.pos_args.length then st.pos_args.get ⟨ind, h⟩ else empty_

/-- Model of `parser::operator()(size_t, T&&)` (lines 115-127): when the
index is out of range the caller-supplied default, already formatted to its
string form by `operator<<`, becomes the content of the returned stream;
otherwise the stored positional string does. -/
def posWithDefault (st : ParserState) (ind : Nat) (defStr : Str) : Str :=
  if h : st.pos_args.length ≤ ind then defStr
  else st.pos_args.get ⟨ind, by omega⟩

/-- Model of `parser::operator()(Tstring const&, T&&)` (lines 156-167):
the value stored for the dash-stripped name, or the formatted default when
the name was never recorded. -/
def paramWithDefault (st : ParserState) (name : Str) (defStr : Str) : Str :=
  match plookup (trim_leading_dashes name) st.params with
  | some v => v
  | none => defStr

/-- Model of `parser::operator()(initializer_list, T&&)` (lines 170-183):
the value of the first alias found in the parameter map, or the formatted
default when none of the aliases was recorded. -/
def paramListWithDefault (st : ParserState) (names : List Str) (defStr : Str) : Str :=
  match names with
  | [] => defStr
  | n :: t =>
    match plookup (trim_leading_dashes n) st.params with
    | some v => v
    | none => paramListWithDefault st t defStr

/-- Dash-stripped names of the option tokens of an argument list, in order. -/
def optionTrims (args : List Str) : List Str :=
  (args.filter fun t => is_option t).map trim_leading_dashes

/-- Token accounting of a state: positionals, plus flag occurrences, plus
two tokens (name and value) per stored parameter pair. -/
def stCount (st : ParserState) : Nat :=
  st.pos_args.length + st.flags.length + 2 * st.params.length

theorem trim_subset (s : Str) : trim_leading_dashes s ⊆ s := by
  unfold trim_leading_dashes
  cases ffno '-' s with
  | none =>
    cases ffno '/' s with
    | none => exact fun a h => h
    | some q => exact fun a h => List.drop_subset q s h
  | some p =>
    by_cases hp : p = 0
    · simp only [hp, if_pos rfl]
      cases ffno '/' s with
      | none => exact fun a h => h
      | some q => exact fun a h => List.drop_subset q s h
    · simp only [if_neg hp]
      exact fun a h => List.drop_subset p s h

theorem ffo_eq_none_of_not_mem (c : Char) (s : Str) (h : c ∉ s) : ffo c s = none := by
  induction s with
  | nil => rfl
  | cons x xs ih =>
    simp only [List.mem_cons, not_or] at h
    have hx : ¬x = c := fun e => h.1 e.symm
    simp [ffo, hx, ih h.2]

theorem step_eq_afterSplit (regd : List Str) (mode : Nat) (tok : Str) (next? : Option Str)
    (hopt : is_option tok = true)
    (heq : hasBit mode NO_SPLIT_ON_EQUALSIGN = true ∨ ffo '=' (trim_leading_dashes tok) = none) :
    step regd mode tok next? = afterSplit regd mode tok (trim_leading_dashes tok) next? := by
  unfold step
  rw [hopt]
  rcases heq with heq | heq
  · simp [heq]
  · by_cases h4 : hasBit mode NO_SPLIT_ON_EQUALSIGN = false
    · simp [h4, heq]
    · simp at h4
      simp [h4]

theorem afterSplit_eq_look (regd : List Str) (mode : Nat) (tok name : Str) (next? : Option Str)
    (h : ¬(tok.length - name.length = 1 ∧ hasBit mode SINGLE_DASH_IS_MULTIFLAG = true ∧
           is_param regd name = false)) :
    afterSplit regd mode tok name next? = look regd mode [] name next? := by
  simp only [afterSplit, if_neg h]

/-- Claim C5: a token whose first character is a dash-like marker but which
parses as a signed decimal number is never an option; the classification
pass stores it as a positional argument. -/
theorem C5_numeric_positional (regd : List Str) (mode : Nat) (tok : Str) (rest : List Str)
    (st : ParserState)
    (_hdash : ∃ c cs, tok = c :: cs ∧ (c = '-' ∨ c = '/'))
    (hnum : is_number tok = true) :
    is_option tok = false ∧
    parse regd mode (tok :: rest) st =
      parse regd mode rest { st with pos_args := st.pos_args ++ [tok] } := by
  have hop : is_option tok = false := by simp [is_option, hnum]
  refine ⟨hop, ?_⟩
  have hs : step regd mode tok rest.head? = .positional := by simp [step, hop]
  simp only [parse, hs]

/-- Witness for C5 on the token `-3.5`. -/
theorem C5_witness :
    is_option ['-', '3', '.', '5'] = false ∧
    parse [] 1 [['-', '3', '.', '5']] emptyState =
      parse [] 1 [] { emptyState with pos_args := emptyState.pos_args ++ [['-', '3', '.', '5']] } :=
  C5_numeric_positional [] 1 ['-', '3', '.', '5'] [] emptyState
    ⟨'-', ['3', '.', '5'], rfl, Or.inl rfl⟩ (by decide)

/-- Claim C6: with NO_SPLIT_ON_EQUALSIGN clear (the default), an option
token whose stripped candidate name contains an equals sign is split at the
first equals sign into a name and a value and inserted as a parameter,
bypassing all later classification steps for that token; with the bit set,
the literal candidate name is handed to the ordinary multi-flag and
flag/parameter lookahead logic instead. -/
theorem C6_equals_split (regd : List Str) (mode : Nat) (tok : Str) (rest : List Str)
    (st : ParserState) (hopt : is_option tok = true) :
    (hasBit mode NO_SPLIT_ON_EQUALSIGN = false → ∀ p, ffo '=' (trim_leading_dashes tok) = some p →
      parse regd mode (tok :: rest) st =
        parse regd mode rest
          { st with params := insertParam st.params ((trim_leading_dashes tok).take p)
                               ((trim_leading_dashes tok).drop (p + 1)) }) ∧
    (hasBit mode NO_SPLIT_ON_EQUALSIGN = true →
      step regd mode tok rest.head? = afterSplit regd mode tok (trim_leading_dashes tok) rest.head?) := by
  constructor
  · intro h4 p hp
    have hs : step regd mode tok rest.head? =
        .eqParam ((trim_leading_dashes tok).take p) ((trim_leading_dashes tok).drop (p + 1)) := by
      unfold step
      rw [hopt]
      simp [h4, hp]
    simp only [parse, hs]
  · intro h4
    exact step_eq_afterSplit regd mode tok rest.head? hopt (Or.inl h4)

/-- Witness for C6 on the token `--n=v` in default mode. -/
theorem C6_witness :
    parse [] 1 [['-', '-', 'n', '=', 'v']] emptyState =
      parse [] 1 []
        { emptyState with
          params := insertParam emptyState.params
                      ((trim_leading_dashes ['-', '-', 'n', '=', 'v']).take 1)
                      ((trim_leading_dashes ['-', '-', 'n', '=', 'v']).drop 2) } :=
  (C6_equals_split [] 1 ['-', '-', 'n', '=', 'v'] [] emptyState (by decide)).1
    (by decide) 1 (by decide)

/-- Claim C2: an option token whose candidate name is followed by a
non-option token becomes a parameter consuming that token as its value when
the name is registered or PREFER_PARAM_FOR_UNREG_OPTION is active (the
recursion continues past both tokens); otherwise it becomes a flag, the
next token is not consumed, and the recursion continues at the next token,
which is classified independently on the following iteration. -/
theorem C2_lookahead (regd : List Str) (mode : Nat) (tok nxt : Str) (rest : List Str)
    (st : ParserState)
    (hopt : is_option tok = true) (hnopt : is_option nxt = false)
    (hboth : ¬(hasBit mode PREFER_FLAG_FOR_UNREG_OPTION = true ∧
               hasBit mode PREFER_PARAM_FOR_UNREG_OPTION = true))
    (heq : hasBit mode NO_SPLIT_ON_EQUALSIGN = true ∨ ffo '=' (trim_leading_dashes tok) = none)
    (hmf : ¬(tok.length - (trim_leading_dashes tok).length = 1 ∧
             hasBit mode SINGLE_DASH_IS_MULTIFLAG = true ∧
             is_param regd (trim_leading_dashes tok) = false)) :
    (is_param regd (trim_leading_dashes tok) = true ∨
       hasBit mode PREFER_PARAM_FOR_UNREG_OPTION = true →
      parse regd mode (tok :: nxt :: rest) st =
        parse regd mode rest
          { st with params := insertParam st.params (trim_leading_dashes tok) nxt }) ∧
    (is_param regd (trim_leading_dashes tok) = false ∧
       hasBit mode PREFER_PARAM_FOR_UNREG_OPTION = false →
      parse regd mode (tok :: nxt :: rest) st =
        parse regd mode (nxt :: rest)
          { st with flags := st.flags ++ [trim_leading_dashes tok] }) := by
  have hbase : step regd mode tok (nxt :: rest).head? =
      look regd mode [] (trim_leading_dashes tok) (some nxt) := by
    rw [step_eq_afterSplit regd mode tok _ hopt heq, afterSplit_eq_look regd mode tok _ _ hmf]
    rfl
  constructor
  · intro h
    have hs : step regd mode tok (nxt :: rest).head? = .par [] (trim_leading_dashes tok) nxt := by
      rw [hbase]
      simp [look, hnopt, hboth, h]
    simp only [parse, hs]
    simp
  · intro h
    have hs : step regd mode tok (nxt :: rest).head? = .flag [] (trim_leading_dashes tok) := by
      rw [hbase]
      simp [look, hnopt, hboth, h.1, h.2]
    simp only [parse, hs]
    simp

/-- Witness for C2 on the token `--x` registered, followed by `5`. -/
theorem C2_witness :
    parse [['x']] 1 [['-', '-', 'x'], ['5']] emptyState =
      parse [['x']] 1 []
        { emptyState with
          params := insertParam emptyState.params (trim_leading_dashes ['-', '-', 'x']) ['5'] } :=
  (C2_lookahead [['x']] 1 ['-', '-', 'x'] ['5'] [] emptyState (by decide) (by decide)
    (by decide) (Or.inr (by decide)) (by decide)).1 (Or.inl (by decide))

/-- Claim C3: with SINGLE_DASH_IS_MULTIFLAG enabled, a token with exactly
one leading dash whose candidate name is not a registered parameter is
expanded character by character into individual flags; if the last
character of the name is itself a registered parameter name it is held
back, the characters before it become flags and the held-back character is
the candidate name carried into lookahead disambiguation; otherwise every
character becomes a flag and processing of the token ends with no
lookahead. -/
theorem C3_multiflag (regd : List Str) (mode : Nat) (tok name : Str) (rest : List Str)
    (st : ParserState)
    (hd : tok = '-' :: name)
    (htr : trim_leading_dashes tok = name)
    (hopt : is_option tok = true)
    (h8 : hasBit mode SINGLE_DASH_IS_MULTIFLAG = true)
    (hreg : is_param regd name = false)
    (heq : hasBit mode NO_SPLIT_ON_EQUALSIGN = true ∨ ffo '=' name = none) :
    (∀ c, name.getLast? = some c → is_param regd [c] = true →
      step regd mode tok rest.head? =
        look regd mode (name.dropLast.map fun a => [a]) [c] rest.head?) ∧
    ((∀ c, name.getLast? = some c → is_param regd [c] = false) →
      parse regd mode (tok :: rest) st =
        parse regd mode rest { st with flags := st.flags ++ name.map fun a => [a] }) := by
  have hlen : tok.length - name.length = 1 := by
    subst hd
    simp
  have hbase : step regd mode tok rest.head? = afterSplit regd mode tok name rest.head? := by
    rw [step_eq_afterSplit regd mode tok _ hopt (by rwa [htr]), htr]
  have hcond : tok.length - name.length = 1 ∧ hasBit mode SINGLE_DASH_IS_MULTIFLAG = true ∧
      is_param regd name = false := ⟨hlen, h8, hreg⟩
  constructor
  · intro c hc hpc
    rw [hbase]
    unfold afterSplit
    rw [if_pos hcond, hc]
    simp [hpc]
  · intro hnc
    have hs : step regd mode tok rest.head? = .multiflagOnly name := by
      rw [hbase]
      unfold afterSplit
      rw [if_pos hcond]
      cases hc : name.getLast? with
      | none => rfl
      | some c => simp [hnc c hc]
    simp only [parse, hs]

/-- Witness for C3 on the token `-abc` with `c` registered. -/
theorem C3_witness :
    step [['c']] 9 ['-', 'a', 'b', 'c'] (some ['5']) =
      look [['c']] 9 ((['a', 'b', 'c'].dropLast).map fun a => [a]) ['c'] (some ['5']) :=
  (C3_multiflag [['c']] 9 ['-', 'a', 'b', 'c'] ['a', 'b', 'c'] [['5']] emptyState rfl
    (by decide) (by decide) (by decide) (by decide) (Or.inr (by decide))).1 'c'
    (by decide) (by decide)

theorem plookup_append_of_some (k : Str) (m l : List (Str × Str)) (v : Str)
    (h : plookup k m = some v) : plookup k (m ++ l) = some v := by
  induction m with
  | nil => simp [plookup] at h
  | cons p m ih =>
    obtain ⟨a, b⟩ := p
    by_cases ha : a = k
    · simp only [plookup, if_pos ha] at h
      simp [plookup, ha, h]
    · simp only [plookup, if_neg ha] at h
      simp [plookup, ha, ih h]

theorem plookup_append_of_none (k : Str) (m l : List (Str × Str))
    (h : plookup k m = none) : plookup k (m ++ l) = plookup k l := by
  induction m with
  | nil => rfl
  | cons p m ih =>
    obtain ⟨a, b⟩ := p
    by_cases ha : a = k
    · simp [plookup, ha] at h
    · simp only [plookup, if_neg ha] at h
      simp [plookup, ha, ih h]

theorem plookup_insertParam_of_some (m : List (Str × Str)) (k v a b : Str)
    (h : plookup k m = some v) : plookup k (insertParam m a b) = some v := by
  unfold insertParam
  by_cases ha : (plookup a m).isSome
  · simp [ha, h]
  · simp only [ha, if_neg, Bool.false_eq_true, not_false_eq_true, if_false]
    exact plookup_append_of_some k m [(a, b)] v h

theorem parse_params_mono_aux (regd : List Str) (mode : Nat) :
    ∀ (n : Nat) (args : List Str), args.length ≤ n →
    ∀ (st st' : ParserState) (k v : Str), parse regd mode args st = some st' →
      plookup k st.params = some v → plookup k st'.params = some v := by
  intro n
  induction n with
  | zero =>
    intro args hlen st st' k v h hv
    have : args = [] := List.eq_nil_of_length_eq_zero (Nat.le_zero.mp hlen)
    subst this
    simp only [parse, Option.some.injEq] at h
    subst h
    exact hv
  | succ n ih =>
    intro args hlen st st' k v h hv
    cases args with
    | nil =>
      simp only [parse, Option.some.injEq] at h
      subst h
      exact hv
    | cons tok rest =>
      simp only [List.length_cons, Nat.succ_le_succ_iff] at hlen
      simp only [parse] at h
      cases hs : step regd mode tok rest.head? <;> rw [hs] at h
      case positional => exact ih rest hlen _ _ k v h hv
      case eqParam a b =>
        exact ih rest hlen _ _ k v h (plookup_insertParam_of_some st.params k v a b hv)
      case multiflagOnly cs => exact ih rest hlen _ _ k v h hv
      case flag pre name => exact ih rest hlen _ _ k v h hv
      case par pre a b =>
        cases rest with
        | nil => simp at h
        | cons nxt rest2 =>
          simp only [List.length_cons] at hlen
          exact ih rest2 (by omega) _ _ k v h (plookup_insertParam_of_some st.params k v a b hv)
      case abort => simp at h

/-- Claim C4: parameter insertion is first-occurrence-wins.  An insertion
for a name already present in the mapping leaves the mapping unchanged, and
consequently any binding present in the containers before (part of) a
classification pass is still present, with the same value, afterwards: a
name classified as a parameter more than once keeps the value of its first
occurrence. -/
theorem C4_first_wins :
    (∀ (m : List (Str × Str)) (k v : Str), (plookup k m).isSome = true →
      insertParam m k v = m) ∧
    (∀ (regd : List Str) (mode : Nat) (args : List Str) (st st' : ParserState) (k v : Str),
      parse regd mode args st = some st' → plookup k st.params = some v →
      plookup k st'.params = some v) := by
  constructor
  · intro m k v h
    simp [insertParam, h]
  · intro regd mode args st st' k v h hv
    exact parse_params_mono_aux regd mode args.length args le_rfl st st' k v h hv

/-- Witness for C4: re-classifying `--x 2` over a parser that already holds
the binding of `x` to `1` leaves that binding in place. -/
theorem C4_witness :
    insertParam [(['x'], ['1'])] ['x'] ['2'] = [(['x'], ['1'])] ∧
    plookup ['x'] (ParserState.mk [(['x'], ['1'])] [] []).params = some ['1'] := by
  constructor
  · exact C4_first_wins.1 [(['x'], ['1'])] ['x'] ['2'] (by decide)
  · exact C4_first_wins.2 [['x']] 1 [['-', '-', 'x'], ['2']]
      (ParserState.mk [(['x'], ['1'])] [] []) (ParserState.mk [(['x'], ['1'])] [] [])
      ['x'] ['1'] (by decide) (by decide)

/-- Claim C7, counterexample: with both PREFER_FLAG_FOR_UNREG_OPTION and
PREFER_PARAM_FOR_UNREG_OPTION set (mode 3), classifying the single token
`-x` completes normally instead of failing at the start: the conflicting
mode bits are not validated before or at the start of classification. -/
theorem C7_counterexample :
    hasBit 3 PREFER_FLAG_FOR_UNREG_OPTION = true ∧
    hasBit 3 PREFER_PARAM_FOR_UNREG_OPTION = true ∧
    parseNew [] 3 [['-', 'x']] = some ⟨[], [], [['x']]⟩ := by decide

/-- Claim C7, amended: the conflicting-mode assertion sits inside the
classification loop and fires at the first option token that reaches
lookahead disambiguation with a following non-option token; inputs in
which no token reaches that step complete without failing. -/
theorem C7_amended (regd : List Str) (mode : Nat) (tok nxt : Str) (rest : List Str)
    (st : ParserState)
    (h1 : hasBit mode PREFER_FLAG_FOR_UNREG_OPTION = true)
    (h2 : hasBit mode PREFER_PARAM_FOR_UNREG_OPTION = true)
    (hopt : is_option tok = true) (hnopt : is_option nxt = false)
    (heq : hasBit mode NO_SPLIT_ON_EQUALSIGN = true ∨ ffo '=' (trim_leading_dashes tok) = none)
    (hmf : ¬(tok.length - (trim_leading_dashes tok).length = 1 ∧
             hasBit mode SINGLE_DASH_IS_MULTIFLAG = true ∧
             is_param regd (trim_leading_dashes tok) = false)) :
    parse regd mode (tok :: nxt :: rest) st = none := by
  have hs : step regd mode tok (nxt :: rest).head? = .abort := by
    rw [step_eq_afterSplit regd mode tok _ hopt heq, afterSplit_eq_look regd mode tok _ _ hmf]
    simp [look, hnopt, h1, h2]
  simp only [parse, hs]

/-- Witness for C7 amended: mode 3 on `-x 5` aborts on the assertion. -/
theorem C7_witness : parse [] 3 [['-', 'x'], ['5']] emptyState = none :=
  C7_amended [] 3 ['-', 'x'] ['5'] [] emptyState (by decide) (by decide) (by decide)
    (by decide) (Or.inr (by decide)) (by decide)

theorem ffno_cons_ne (c x : Char) (xs : Str) (h : x ≠ c) : ffno c (x :: xs) = some 0 := by
  simp [ffno, h]

theorem ffno_drop_head (c : Char) (s : Str) (p : Nat) (h : ffno c s = some p) :
    ∃ a t, s.drop p = a :: t ∧ a ≠ c := by
  induction s generalizing p with
  | nil => simp [ffno] at h
  | cons x xs ih =>
    by_cases hx : x = c
    · simp only [ffno, if_pos hx] at h
      cases hq : ffno c xs with
      | none => rw [hq] at h; exact Option.noConfusion h
      | some q =>
        rw [hq] at h
        simp only [Option.map, Option.some.injEq] at h
        subst h
        obtain ⟨a, t, h1, h2⟩ := ih q hq
        exact ⟨a, t, by simpa using h1, h2⟩
    · simp only [ffno, if_neg hx] at h
      simp only [Option.some.injEq] at h
      subst h
      exact ⟨x, xs, rfl, hx⟩

theorem trim_eq_of_pos (name : Str) (p : Nat) (hp : ffno '-' name = some p) (h0 : p ≠ 0) :
    trim_leading_dashes name = name.drop p := by
  unfold trim_leading_dashes
  rw [hp]
  simp [h0]

theorem trim_eq_of_zero_some (name : Str) (q : Nat) (hp : ffno '-' name = some 0)
    (hq : ffno '/' name = some q) : trim_leading_dashes name = name.drop q := by
  unfold trim_leading_dashes
  rw [hp, hq]
  simp

theorem trim_eq_of_zero_none (name : Str) (hp : ffno '-' name = some 0)
    (hq : ffno '/' name = none) : trim_leading_dashes name = name := by
  unfold trim_leading_dashes
  rw [hp, hq]
  simp

theorem trim_eq_of_none_some (name : Str) (q : Nat) (hp : ffno '-' name = none)
    (hq : ffno '/' name = some q) : trim_leading_dashes name = name.drop q := by
  unfold trim_leading_dashes
  rw [hp, hq]

theorem trim_of_head_not_marker (x : Char) (xs : Str) (h1 : x ≠ '-') (h2 : x ≠ '/') :
    trim_leading_dashes (x :: xs) = x :: xs :=
  trim_eq_of_zero_some (x :: xs) 0 (ffno_cons_ne '-' x xs h1) (ffno_cons_ne '/' x xs h2)

theorem trim_idem_no_slash (s : Str) (h : '/' ∉ s) :
    trim_leading_dashes (trim_leading_dashes s) = trim_leading_dashes s := by
  cases s with
  | nil => rfl
  | cons x xs =>
    have hxs : x ≠ '/' := fun e => h (by simp [e])
    by_cases hx : x = '-'
    · subst hx
      cases hp : ffno '-' ('-' :: xs) with
      | none =>
        have hts : trim_leading_dashes ('-' :: xs) = ('-' :: xs).drop 0 :=
          trim_eq_of_none_some ('-' :: xs) 0 hp (ffno_cons_ne '/' '-' xs hxs)
        simp only [List.drop_zero] at hts
        rw [hts, hts]
      | some p =>
        have hp0 : p ≠ 0 := by
          simp only [ffno, if_pos rfl] at hp
          cases hq : ffno '-' xs with
          | none => rw [hq] at hp; exact Option.noConfusion hp
          | some q =>
            rw [hq] at hp
            have hqp : q + 1 = p := Option.some.inj hp
            omega
        have hts : trim_leading_dashes ('-' :: xs) = ('-' :: xs).drop p :=
          trim_eq_of_pos ('-' :: xs) p hp hp0
        obtain ⟨a, t, hdrop, ha⟩ := ffno_drop_head '-' ('-' :: xs) p hp
        have hnox : '/' ∉ ('-' :: xs).drop p := fun hm => h (List.drop_subset p ('-' :: xs) hm)
        rw [hdrop] at hnox
        have ha2 : a ≠ '/' := fun e => hnox (by simp [e])
        rw [hts, hdrop]
        exact trim_of_head_not_marker a t ha ha2
    · have hts : trim_leading_dashes (x :: xs) = x :: xs := trim_of_head_not_marker x xs hx hxs
      rw [hts, hts]

theorem trim_idem_no_dash (s : Str) (h : '-' ∉ s) :
    trim_leading_dashes (trim_leading_dashes s) = trim_leading_dashes s := by
  cases s with
  | nil => rfl
  | cons x xs =>
    have hxd : x ≠ '-' := fun e => h (by simp [e])
    cases hq : ffno '/' (x :: xs) with
    | none =>
      have hts : trim_leading_dashes (x :: xs) = x :: xs :=
        trim_eq_of_zero_none (x :: xs) (ffno_cons_ne '-' x xs hxd) hq
      rw [hts, hts]
    | some q =>
      have hts : trim_leading_dashes (x :: xs) = (x :: xs).drop q :=
        trim_eq_of_zero_some (x :: xs) q (ffno_cons_ne '-' x xs hxd) hq
      obtain ⟨a, t, hdrop, ha⟩ := ffno_drop_head '/' (x :: xs) q hq
      have hnox : '-' ∉ (x :: xs).drop q := fun hm => h (List.drop_subset q (x :: xs) hm)
      rw [hdrop] at hnox
      have ha2 : a ≠ '-' := fun e => hnox (by simp [e])
      rw [hts, hdrop]
      exact trim_of_head_not_marker a t ha2 ha

/-- Claim C8, counterexample: name stripping is not idempotent on the
three-character string dash, slash, x: one application yields `/x`, and a
second application yields `x`. -/
theorem C8_counterexample :
    trim_leading_dashes (trim_leading_dashes ['-', '/', 'x']) ≠
      trim_leading_dashes ['-', '/', 'x'] := by decide

/-- Claim C8, amended: name stripping is idempotent on every string that
does not contain both a dash and a slash; only strings mixing the two
marker characters can strip differently on a second application. -/
theorem C8_amended (s : Str) (h : ¬('-' ∈ s ∧ '/' ∈ s)) :
    trim_leading_dashes (trim_leading_dashes s) = trim_leading_dashes s := by
  by_cases hd : '-' ∈ s
  · exact trim_idem_no_slash s fun hs => h ⟨hd, hs⟩
  · exact trim_idem_no_dash s hd

/-- Witness for C8 amended on the string `--x`. -/
theorem C8_witness :
    trim_leading_dashes (trim_leading_dashes ['-', '-', 'x']) =
      trim_leading_dashes ['-', '-', 'x'] :=
  C8_amended ['-', '-', 'x'] (by decide)

/-- Claim C9: the default-taking accessors substitute the caller-supplied
default, already round-tripped through its string form, exactly when the
positional index or parameter name (or every alias of a list) was never
recorded; when the index or name was recorded, the stored string is
returned and the default is ignored.  The first alias found wins. -/
theorem C9_default_accessors :
    (∀ (st : ParserState) (ind : Nat) (d : Str), st.pos_args.length ≤ ind →
      posWithDefault st ind d = d) ∧
    (∀ (st : ParserState) (ind : Nat) (d : Str) (h : ind < st.pos_args.length),
      posWithDefault st ind d = st.pos_args.get ⟨ind, h⟩) ∧
    (∀ (st : ParserState) (name d : Str),
      plookup (trim_leading_dashes name) st.params = none →
      paramWithDefault st name d = d) ∧
    (∀ (st : ParserState) (name d v : Str),
      plookup (trim_leading_dashes name) st.params = some v →
      paramWithDefault st name d = v) ∧
    (∀ (st : ParserState) (names : List Str) (d : Str),
      (∀ n ∈ names, plookup (trim_leading_dashes n) st.params = none) →
      paramListWithDefault st names d = d) ∧
    (∀ (st : ParserState) (n : Str) (names : List Str) (d v : Str),
      plookup (trim_leading_dashes n) st.params = some v →
      paramListWithDefault st (n :: names) d = v) := by
  refine ⟨?_, ?_, ?_, ?_, ?_, ?_⟩
  · intro st ind d h
    simp [posWithDefault, h]
  · intro st ind d h
    rw [posWithDefault, dif_neg (by omega)]
  · intro st name d h
    simp [paramWithDefault, h]
  · intro st name d v h
    simp [paramWithDefault, h]
  · intro st names d h
    induction names with
    | nil => rfl
    | cons n t ih =>
      rw [paramListWithDefault, h n (by simp)]
      exact ih fun m hm => h m (by simp [hm])
  · intro st n names d v h
    rw [paramListWithDefault, h]

/-- Witness for C9: an absent positional index yields the default, a
recorded parameter ignores it. -/
theorem C9_witness :
    posWithDefault (ParserState.mk [] [] []) 0 ['d'] = ['d'] ∧
    paramWithDefault (ParserState.mk [(['x'], ['1'])] [] []) ['x'] ['d'] = ['1'] :=
  ⟨C9_default_accessors.1 (ParserState.mk [] [] []) 0 ['d'] (by decide),
   C9_default_accessors.2.2.2.1 (ParserState.mk [(['x'], ['1'])] [] []) ['x'] ['d'] ['1']
     (by decide)⟩

/-- Claim C10: indexed positional access is total: an index within range
returns the stored positional, and any out-of-range index returns the
member `empty_` (the empty string), so an out-of-range lookup is
indistinguishable from a stored empty positional token at that position,
as the third conjunct shows by appending one. -/
theorem C10_total_index :
    (∀ (st : ParserState) (ind : Nat) (h : ind < st.pos_args.length),
      opIdx st ind = st.pos_args.get ⟨ind, h⟩) ∧
    (∀ (st : ParserState) (ind : Nat), st.pos_args.length ≤ ind → opIdx st ind = empty_) ∧
    (∀ (params : List (Str × Str)) (pos flags : List Str),
      opIdx (ParserState.mk params (pos ++ [[]]) flags) pos.length =
        opIdx (ParserState.mk params pos flags) pos.length) := by
  refine ⟨?_, ?_, ?_⟩
  · intro st ind h
    rw [opIdx, dif_pos h]
  · intro st ind h
    rw [opIdx, dif_neg (by omega)]
  · intro params pos flags
    have hlt : pos.length < (pos ++ [([] : Str)]).length := by simp
    rw [opIdx, dif_pos hlt]
    rw [opIdx, dif_neg (by simp)]
    simp [empty_, List.get_eq_getElem]

/-- Witness for C10 on a one-element positional list. -/
theorem C10_witness :
    opIdx (ParserState.mk [] [['a']] []) 0 = ['a'] ∧
    opIdx (ParserState.mk [] [['a']] []) 1 = empty_ :=
  ⟨C10_total_index.1 (ParserState.mk [] [['a']] []) 0 (by decide),
   C10_total_index.2.1 (ParserState.mk [] [['a']] []) 1 (by decide)⟩

theorem optionTrims_cons_opt (tok : Str) (args : List Str) (h : is_option tok = true) :
    optionTrims (tok :: args) = trim_leading_dashes tok :: optionTrims args := by
  simp [optionTrims, h]

theorem optionTrims_cons_not (tok : Str) (args : List Str) (h : is_option tok = false) :
    optionTrims (tok :: args) = optionTrims args := by
  simp [optionTrims, h]

theorem insertParam_of_none (m : List (Str × Str)) (k v : Str) (h : plookup k m = none) :
    insertParam m k v = m ++ [(k, v)] := by
  simp [insertParam, h]

theorem parse_conservation_aux (regd : List Str) (mode : Nat)
    (h8 : hasBit mode SINGLE_DASH_IS_MULTIFLAG = false)
    (hboth : ¬(hasBit mode PREFER_FLAG_FOR_UNREG_OPTION = true ∧
               hasBit mode PREFER_PARAM_FOR_UNREG_OPTION = true)) :
    ∀ (n : Nat) (args : List Str), args.length ≤ n →
    ∀ st : ParserState, (∀ t ∈ args, '=' ∉ t) → (optionTrims args).Nodup →
    (∀ k ∈ optionTrims args, plookup k st.params = none) →
    ∃ st', parse regd mode args st = some st' ∧
      stCount st' = stCount st + args.length ∧
      ∀ k, (plookup k st'.params).isSome = true →
        (plookup k st.params).isSome = true ∨ k ∈ optionTrims args := by
  intro n
  induction n with
  | zero =>
    intro args hlen st _ _ _
    have hargs : args = [] := List.eq_nil_of_length_eq_zero (Nat.le_zero.mp hlen)
    subst hargs
    exact ⟨st, rfl, by simp, fun k hk => Or.inl hk⟩
  | succ n ih =>
    intro args hlen st heq hnd hfr
    cases args with
    | nil => exact ⟨st, rfl, by simp, fun k hk => Or.inl hk⟩
    | cons tok rest =>
      simp only [List.length_cons, Nat.succ_le_succ_iff] at hlen
      cases hopt : is_option tok with
      | false =>
        have hs : step regd mode tok rest.head? = .positional := by simp [step, hopt]
        have htr : optionTrims (tok :: rest) = optionTrims rest :=
          optionTrims_cons_not tok rest hopt
        rw [htr] at hnd hfr
        obtain ⟨st', h1, h2, h3⟩ := ih rest hlen { st with pos_args := st.pos_args ++ [tok] }
          (fun t ht => heq t (List.mem_cons_of_mem _ ht)) hnd hfr
        refine ⟨st', ?_, ?_, ?_⟩
        · rw [parse_cons_positional regd mode tok rest st hs]
          exact h1
        · have hc1 : stCount { st with pos_args := st.pos_args ++ [tok] } = stCount st + 1 := by
            simp [stCount]
            omega
          rw [h2, hc1]
          simp only [List.length_cons]
          omega
        · intro k hk
          rcases h3 k hk with h | h
          · exact Or.inl h
          · exact Or.inr (htr ▸ h)
      | true =>
        have hneq : ffo '=' (trim_leading_dashes tok) = none :=
          ffo_eq_none_of_not_mem _ _ fun hm => heq tok (by simp) (trim_subset tok hm)
        have hmf : ¬(tok.length - (trim_leading_dashes tok).length = 1 ∧
            hasBit mode SINGLE_DASH_IS_MULTIFLAG = true ∧
            is_param regd (trim_leading_dashes tok) = false) := by
          intro hcon
          exact absurd (h8.symm.trans hcon.2.1) (by decide)
        have hbase : step regd mode tok rest.head? =
            look regd mode [] (trim_leading_dashes tok) rest.head? := by
          rw [step_eq_afterSplit regd mode tok _ hopt (Or.inr hneq),
            afterSplit_eq_look regd mode tok _ _ hmf]
        have htr : optionTrims (tok :: rest) =
            trim_leading_dashes tok :: optionTrims rest := optionTrims_cons_opt tok rest hopt
        rw [htr] at hnd hfr
        have hnm : trim_leading_dashes tok ∉ optionTrims rest := (List.nodup_cons.mp hnd).1
        have hnd2 : (optionTrims rest).Nodup := (List.nodup_cons.mp hnd).2
        have hfrh : plookup (trim_leading_dashes tok) st.params = none := hfr _ (by simp)
        have hfr2 : ∀ k ∈ optionTrims rest, plookup k st.params = none := fun k hk =>
          hfr k (by simp [hk])
        cases rest with
        | nil =>
          have hs : step regd mode tok ([] : List Str).head? =
              .flag [] (trim_leading_dashes tok) := by
            rw [hbase]
            rfl
          refine ⟨{ st with flags := st.flags ++ [] ++ [trim_leading_dashes tok] }, ?_, ?_, ?_⟩
          · rw [parse_cons_flag regd mode tok [] st [] (trim_leading_dashes tok) hs]
            rfl
          · simp [stCount]
            omega
          · intro k hk
            exact Or.inl hk
        | cons nxt rest2 =>
          cases hno : is_option nxt with
          | true =>
            have hs : step regd mode tok (nxt :: rest2).head? =
                .flag [] (trim_leading_dashes tok) := by
              rw [hbase]
              simp [look, hno]
            obtain ⟨st', h1, h2, h3⟩ := ih (nxt :: rest2) hlen
              { st with flags := st.flags ++ [] ++ [trim_leading_dashes tok] }
              (fun t ht => heq t (List.mem_cons_of_mem _ ht)) hnd2 hfr2
            refine ⟨st', ?_, ?_, ?_⟩
            · rw [parse_cons_flag regd mode tok (nxt :: rest2) st [] (trim_leading_dashes tok) hs]
              exact h1
            · have hc1 : stCount { st with
                  flags := st.flags ++ [] ++ [trim_leading_dashes tok] } = stCount st + 1 := by
                simp [stCount]
                omega
              rw [h2, hc1]
              simp only [List.length_cons]
              omega
            · intro k hk
              rcases h3 k hk with h | h
              · exact Or.inl h
              · rw [htr]
                exact Or.inr (List.mem_cons_of_mem _ h)
          | false =>
            have htr2 : optionTrims (nxt :: rest2) = optionTrims rest2 :=
              optionTrims_cons_not nxt rest2 hno
            by_cases hpp : is_param regd (trim_leading_dashes tok) = true ∨
                hasBit mode PREFER_PARAM_FOR_UNREG_OPTION = true
            · have hs : step regd mode tok (nxt :: rest2).head? =
                  .par [] (trim_leading_dashes tok) nxt := by
                rw [hbase]
                simp [look, hno, hboth, hpp]
              have hins : insertParam st.params (trim_leading_dashes tok) nxt =
                  st.params ++ [(trim_leading_dashes tok, nxt)] :=
                insertParam_of_none st.params _ nxt hfrh
              have hfr3 : ∀ k ∈ optionTrims rest2,
                  plookup k (insertParam st.params (trim_leading_dashes tok) nxt) = none := by
                intro k hk
                have hkr : k ∈ optionTrims (nxt :: rest2) := htr2 ▸ hk
                have hak : trim_leading_dashes tok ≠ k := fun e => hnm (e ▸ hkr)
                rw [hins, plookup_append_of_none k st.params _ (hfr2 k hkr)]
                simp [plookup, hak]
              have hlen2 : rest2.length ≤ n := by
                simp only [List.length_cons] at hlen
                omega
              obtain ⟨st', h1, h2, h3⟩ := ih rest2 hlen2
                (ParserState.mk (insertParam st.params (trim_leading_dashes tok) nxt)
                  st.pos_args (st.flags ++ []))
                (fun t ht => heq t (by simp [ht])) (htr2 ▸ hnd2) hfr3
              refine ⟨st', ?_, ?_, ?_⟩
              · rw [parse_cons_par regd mode tok nxt rest2 st [] (trim_leading_dashes tok) nxt hs]
                exact h1
              · have hc1 : stCount (ParserState.mk
                    (insertParam st.params (trim_leading_dashes tok) nxt)
                    st.pos_args (st.flags ++ [])) = stCount st + 2 := by
                  simp [stCount, hins]
                  omega
                rw [h2, hc1]
                simp only [List.length_cons]
                omega
              · intro k hk
                rcases h3 k hk with h | h
                · simp only [hins] at h
                  cases hpk : plookup k st.params with
                  | some v =>
                    left
                    simp [hpk]
                  | none =>
                    rw [plookup_append_of_none k st.params _ hpk] at h
                    by_cases hak : trim_leading_dashes tok = k
                    · right
                      rw [htr]
                      exact hak ▸ List.mem_cons_self _ _
                    · simp [plookup, hak] at h
                · right
                  rw [htr]
                  exact List.mem_cons_of_mem _ (htr2 ▸ h)
            · push_neg at hpp
              have hp1 : is_param regd (trim_leading_dashes tok) = false :=
                Bool.not_eq_true _ ▸ hpp.1
              have hp2 : hasBit mode PREFER_PARAM_FOR_UNREG_OPTION = false :=
                Bool.not_eq_true _ ▸ hpp.2
              have hs : step regd mode tok (nxt :: rest2).head? =
                  .flag [] (trim_leading_dashes tok) := by
                rw [hbase]
                simp [look, hno, hboth, hp1, hp2]
              obtain ⟨st', h1, h2, h3⟩ := ih (nxt :: rest2) hlen
                { st with flags := st.flags ++ [] ++ [trim_leading_dashes tok] }
                (fun t ht => heq t (List.mem_cons_of_mem _ ht)) hnd2 hfr2
              refine ⟨st', ?_, ?_, ?_⟩
              · rw [parse_cons_flag regd mode tok (nxt :: rest2) st [] (trim_leading_dashes tok) hs]
                exact h1
              · have hc1 : stCount { st with
                    flags := st.flags ++ [] ++ [trim_leading_dashes tok] } = stCount st + 1 := by
                  simp [stCount]
                  omega
                rw [h2, hc1]
                simp only [List.length_cons]
                omega
              · intro k hk
                rcases h3 k hk with h | h
                · exact Or.inl h
                · rw [htr]
                  exact Or.inr (List.mem_cons_of_mem _ h)

/-- Claim C1, counterexample: classifying the two tokens `--x 5` with `x`
registered stores one parameter pair and nothing else, so the number of
positionals plus flag occurrences plus parameter entries (each pair counted
once) is 1 while the input token count is 2. -/
theorem C1_counterexample :
    Option.map (fun st => st.pos_args.length + st.flags.length + st.params.length)
      (parseNew [['x']] PREFER_FLAG_FOR_UNREG_OPTION [['-', '-', 'x'], ['5']]) = some 1 ∧
    ([['-', '-', 'x'], ['5']] : List Str).length = 2 ∧ (1 : Nat) ≠ 2 := by decide

/-- Claim C1, amended: every token is consumed by exactly one
classification action, each parameter pair recorded by lookahead accounting
for two tokens (its name and its consumed value).  Provided
SINGLE_DASH_IS_MULTIFLAG is clear, the two unregistered-preference bits are
not both set, no token contains an equals sign, and the dash-stripped names
of the option tokens are pairwise distinct, a classification pass on a
freshly constructed parser succeeds and the number of stored positionals
plus flag occurrences plus twice the number of parameter entries equals the
number of input tokens. -/
theorem C1_amended (regd : List Str) (mode : Nat) (args : List Str)
    (h8 : hasBit mode SINGLE_DASH_IS_MULTIFLAG = false)
    (hboth : ¬(hasBit mode PREFER_FLAG_FOR_UNREG_OPTION = true ∧
               hasBit mode PREFER_PARAM_FOR_UNREG_OPTION = true))
    (heq : ∀ t ∈ args, '=' ∉ t)
    (hnd : (optionTrims args).Nodup) :
    ∃ st', parseNew regd mode args = some st' ∧
      st'.pos_args.length + st'.flags.length + 2 * st'.params.length = args.length := by
  obtain ⟨st', h1, h2, _⟩ := parse_conservation_aux regd mode h8 hboth args.length args
    le_rfl emptyState heq hnd (fun k _ => rfl)
  refine ⟨st', h1, ?_⟩
  simpa [stCount, emptyState] using h2

/-- Witness for C1 amended: four tokens, one positional, one registered
parameter pair, one flag. -/
theorem C1_witness :
    ∃ st', parseNew [['x']] 1 [['a'], ['-', '-', 'x'], ['5'], ['-', 'f']] = some st' ∧
      st'.pos_args.length + st'.flags.length + 2 * st'.params.length =
        ([['a'], ['-', '-', 'x'], ['5'], ['-', 'f']] : List Str).length :=
  C1_amended [['x']] 1 [['a'], ['-', '-', 'x'], ['5'], ['-', 'f']] (by decide) (by decide)
    (by decide) (by decide)

end Argh
